import Mathlib

/-
Verification of the contrail-healer event-routing and per-healer pipeline.

The development shallowly embeds the relevant parts of the source:
  * `heal.py`    : the dispatcher loop `Heal._process`, the broadcast step
                   `Heal._broadcast` and the registration step
                   `Heal._register_healer`.
  * `healer.py`  : the buffer drain `Healer._process_buffer`, the retry
                   policy `Healer._retry` and the verdict dispatch
                   `Healer._heal`.

Python dictionaries become association lists (keeping insertion order),
greenlet side effects become explicit effect/action lists, and Python
exceptions become an explicit `Except`/`Option` error channel.
-/

namespace CH

/-- Deduplication identity of a resource reference.
Modelled from the spec: `contrail_api_cli.resource.Resource` is an external
collaborator (its `__eq__` is not part of this repository); the spec defines
equality for deduplication as equal `(operation, resource_type, identity)`
where identity is the uuid if present, otherwise the fully-qualified name,
otherwise the snapshot's canonical form. -/
inductive Identity
  | uuid (u : String)
  | fqn (f : List String)
  | snap (s : List (String × String))
  deriving DecidableEq

/-- An `obj_dict` snapshot carried by a bus message: an attribute map that may
contain a uuid and a fully-qualified name. -/
structure Snapshot where
  uuid? : Option String
  fqn? : Option (List String)
  attrs : List (String × String)
  deriving DecidableEq

/-- A resource reference as built by `Heal._broadcast`: either populated from a
snapshot or a bare-uuid handle. -/
structure Resource where
  rtype : String
  uuid? : Option String
  fqn? : Option (List String)
  attrs : List (String × String)
  deriving DecidableEq

/-- `Resource(body['type'], **body['obj_dict'])` in `Heal._broadcast`. -/
def Resource.fromSnapshot (ty : String) (s : Snapshot) : Resource :=
  ⟨ty, s.uuid?, s.fqn?, s.attrs⟩

/-- `Resource(body['type'], uuid=body['uuid'])` in `Heal._broadcast`. -/
def Resource.fromUuid (ty u : String) : Resource :=
  ⟨ty, some u, none, []⟩

/-- Modelled from the spec: the deduplication identity of a resource —
uuid if present, otherwise fq_name, otherwise the snapshot itself. -/
def Resource.identity (r : Resource) : Identity :=
  match r.uuid? with
  | some u => .uuid u
  | none =>
    match r.fqn? with
    | some f => .fqn f
    | none => .snap r.attrs

/-- A work item `(oper, resource)` as put on healer queues. -/
abbrev Work := String × Resource

/-- The deduplication key `(operation, resource_type, identity)` of a work
item. -/
def workKey (w : Work) : String × String × Identity :=
  (w.1, w.2.rtype, w.2.identity)

/-- Work-item equality used for `work not in to_process` and for the
`_retries` dictionary keys (spec §3 deduplication equality). -/
def workEqb (x y : Work) : Bool :=
  decide (workKey x = workKey y)

/-- The marker heading a check-result tuple.  `Healer._heal` dispatches on
Python identity: `result[0] is False`, `result[0] is None`, else OK.
`obj b` stands for any Python object other than `False` and `None`, with
truthiness flag `b` (`obj true` is a falsy object such as `0` or `""`;
`obj false` is a truthy object such as `True` or a non-empty value). -/
inductive Marker
  | pyFalse
  | pyNone
  | obj (falsy : Bool)
  deriving DecidableEq

/-- Python truthiness of a marker (`False`, `None`, `0`, `""`, … are falsy). -/
def Marker.isFalsy : Marker → Bool
  | .pyFalse => true
  | .pyNone => true
  | .obj b => b

/-- A check result: a non-empty tuple, head marker plus the remaining
elements (the fix arguments). -/
structure CheckRes where
  marker : Marker
  args : List String
  deriving DecidableEq

/-- Observable effects of one `Healer._heal` / `Healer._retry` invocation. -/
inductive Effect
  | logNotOk (r : Resource)
  | fix (args : List String)
  | logOk (r : Resource)
  | logRetrying (r : Resource) (delay : Nat)
  | scheduleReinsert (delay : Nat) (w : Work)
  | logCeiling (r : Resource)
  deriving DecidableEq

/-- The `self._retries` dictionary, as an insertion-ordered association
list from work items to retry counts. -/
abbrev RetryMap := List (Work × Nat)

/-- Dictionary lookup `self._retries.get((oper, r))`: value of the first
entry whose key equals `w`. -/
def lookupRetry : RetryMap → Work → Option Nat
  | [], _ => none
  | p :: rest, w => if workEqb p.1 w then some p.2 else lookupRetry rest w

/-- Dictionary write `self._retries[(oper, r)] = n` (update in place if the
key is present, append otherwise). -/
def setRetry (m : RetryMap) (w : Work) (n : Nat) : RetryMap :=
  if m.any (fun p => workEqb p.1 w) then
    m.map (fun p => if workEqb p.1 w then (p.1, n) else p)
  else
    m ++ [(w, n)]

/-- Dictionary delete `del self._retries[(oper, r)]`. -/
def eraseRetry (m : RetryMap) (w : Work) : RetryMap :=
  m.filter (fun p => !(workEqb p.1 w))

/-- `Healer._retry(oper, r)`: increment the counter (initialise to 1 if
absent); if the new count is within `max_check_retries`, log and schedule
re-insertion of the item into the buffer queue after `count` seconds
(`pool.spawn_later(nb_retries, self._buffer.put, (oper, r))`); otherwise
log the ceiling and delete the counter.  The written counter value is read
back immediately in the source; here `n` names that value directly. -/
def retry_step (maxR : Nat) (m : RetryMap) (w : Work) : RetryMap × List Effect :=
  let n :=
    match lookupRetry m w with
    | none => 1
    | some c => c + 1
  if n ≤ maxR then
    (setRetry m w n, [Effect.logRetrying w.2 n, Effect.scheduleReinsert n w])
  else
    (eraseRetry (setRetry m w n) w, [Effect.logCeiling w.2])

/-- `Healer._heal(oper, r)` applied to the result of `self.check(oper, r)`:
`result[0] is False` → log and fix with the remaining elements;
`result[0] is None` → retry policy; anything else → log OK. -/
def heal_step (maxR : Nat) (m : RetryMap) (w : Work) (res : CheckRes) :
    RetryMap × List Effect :=
  match res.marker with
  | .pyFalse => (m, [Effect.logNotOk w.2, Effect.fix res.args])
  | .pyNone => retry_step maxR m w
  | .obj _ => (m, [Effect.logOk w.2])

/-- `Healer._heal` with the exception channel made explicit: the body of
`_heal` contains no try/except, so an exception raised by `self.check`
propagates out of the greenlet; `self._retries` is left untouched and no
effect is produced. -/
def heal_step_exc (maxR : Nat) (m : RetryMap) (w : Work)
    (res : Except String CheckRes) : RetryMap × List Effect × Option String :=
  match res with
  | .error e => (m, [], some e)
  | .ok r =>
    let s := heal_step maxR m w r
    (s.1, s.2, none)

/-- Whether an effect re-inserts the item into the buffer queue. -/
def isReinsert : Effect → Bool
  | .scheduleReinsert _ _ => true
  | _ => false

/-- Whether an effect is a fix invocation. -/
def isFix : Effect → Bool
  | .fix _ => true
  | _ => false

/-- Lifetime of a single work item assuming no further events arrive from
the dispatcher: each list element is the result of one `check` invocation;
a further check happens exactly when the previous `_heal` scheduled a
re-insertion into the buffer.  Returns the number of `check` invocations
performed and the final `_retries` dictionary. -/
def keyRun (maxR : Nat) (w : Work) : RetryMap → List CheckRes → Nat × RetryMap
  | m, [] => (0, m)
  | m, r :: rs =>
    let s := heal_step maxR m w r
    if s.2.any isReinsert then
      ((keyRun maxR w s.1 rs).1 + 1, (keyRun maxR w s.1 rs).2)
    else
      (1, s.1)

/-- One step of the drain loop in `Healer._process_buffer`:
`if work not in to_process: to_process.append(work)`. -/
def dedupStep (acc : List Work) (w : Work) : List Work :=
  if acc.any (fun x => workEqb x w) then acc else acc ++ [w]

/-- The `to_process` list built by `Healer._process_buffer` from the items
drained from the buffer queue (in drain order). -/
def drainDedup (buf : List Work) : List Work :=
  buf.foldl dedupStep []

/-- Effect of `Healer._process_buffer`: a check task scheduled after
`check_delay` seconds for a work item. -/
inductive BufEffect
  | scheduleCheck (delay : Nat) (w : Work)
  deriving DecidableEq

/-- `Healer._process_buffer`: drain the buffer with deduplication and spawn
`pool.spawn_later(self.check_delay, self._heal, oper, r)` for each retained
item. -/
def process_buffer (checkDelay : Nat) (buf : List Work) : List BufEffect :=
  (drainDedup buf).map (fun w => BufEffect.scheduleCheck checkDelay w)

/-- Whether a buffer effect schedules a check for an item with the same
deduplication key as `w`. -/
def isCheckFor (w : Work) : BufEffect → Bool
  | .scheduleCheck _ x => workEqb x w

/-- A healer as seen by the registration step: its `resource` attribute and
its `on` attribute (list of operation names). -/
structure HealerDesc where
  resource : String
  «on» : List String
  deriving DecidableEq

/-- Inner level of the dispatch table: operation → list of healers. -/
abbrev OperMap := List (String × List HealerDesc)

/-- The dispatch table `self._healers`: resource type → operation → healers,
as nested insertion-ordered association lists. -/
abbrev Table := List (String × OperMap)

/-- Whether an association list contains a key (`k in d` on a dict). -/
def alAny {α : Type} (l : List (String × α)) (k : String) : Bool :=
  l.any (fun p => p.1 == k)

/-- Update the value stored at a key of an association list in place. -/
def alUpdate {α : Type} (l : List (String × α)) (k : String) (f : α → α) :
    List (String × α) :=
  l.map (fun p => if p.1 == k then (p.1, f p.2) else p)

/-- Association list lookup (`d.get(k)` on a dict): value of the first
entry whose key equals `k`. -/
def alGet {α : Type} : List (String × α) → String → Option α
  | [], _ => none
  | p :: rest, k => if p.1 == k then some p.2 else alGet rest k

/-- One iteration of the `for oper in healer.on` loop of
`Heal._register_healer`: ensure the operation key exists under the healer's
resource key, then append the healer. -/
def registerOp (res : String) (h : HealerDesc) (acc : Table) (op : String) :
    Table :=
  alUpdate acc res (fun om =>
    let om1 := if alAny om op then om else om ++ [(op, [])]
    alUpdate om1 op (fun hs => hs ++ [h]))

/-- `Heal._register_healer(healer)`: ensure the resource key exists, then
append the healer under every operation in `healer.on`.  No validation of
`resource` or `on` is performed and no error can be raised. -/
def register_healer (t : Table) (h : HealerDesc) : Table :=
  let t1 := if alAny t h.resource then t else t ++ [(h.resource, [])]
  h.«on».foldl (registerOp h.resource h) t1

/-- `self._healers.get(resource, {}).get(oper, [])` in `Heal._process`. -/
def lookupHealers (t : Table) (res op : String) : List HealerDesc :=
  (alGet ((alGet t res).getD []) op).getD []

/-- A decoded bus-message body, as a record of the dictionary keys the
dispatcher reads.  `uuid?` is `body.get('uuid')`: `none` models both an
absent key and an explicit null. -/
structure Body where
  type? : Option String
  oper? : Option String
  objDict? : Option Snapshot
  uuid? : Option String
  deriving DecidableEq

/-- Outcome of `json.loads(msg.body)`: decoding fails with `ValueError`;
decoding yields a non-mapping (indexing it raises an uncaught `TypeError`);
or decoding yields a mapping. -/
inductive DecodeOutcome
  | fail
  | nonDict
  | dict (b : Body)
  deriving DecidableEq

/-- Observable actions of the dispatcher for one bus message. -/
inductive Action
  | ack
  | enqueue (h : HealerDesc) (w : Work)
  deriving DecidableEq

/-- Whether an action is the bus acknowledgement. -/
def isAck : Action → Bool
  | .ack => true
  | _ => false

/-- `Heal._broadcast(healers, body)`: if `obj_dict` is present build the
resource from the snapshot; otherwise if `uuid` is absent or null enqueue
nothing; otherwise build the bare-uuid handle; then put `(oper, resource)`
on each healer's input queue.  `ty` and `op` are the `body['type']` and
`body['oper']` values re-read from the unchanged body. -/
def broadcastActs (ty op : String) (objDict : Option Snapshot)
    (uuid : Option String) (hs : List HealerDesc) : List Action :=
  match objDict with
  | some s => hs.map (fun h => Action.enqueue h (op, Resource.fromSnapshot ty s))
  | none =>
    match uuid with
    | none => []
    | some u => hs.map (fun h => Action.enqueue h (op, Resource.fromUuid ty u))

/-- One iteration of `Heal._process` for one message taken from the bus
queue, as the ordered list of observable actions plus a propagated
exception if any.  Ordering note: `pool.spawn(self._broadcast, …)` only
schedules a greenlet; under gevent's cooperative scheduler the dispatcher
continues to `msg.ack()` in the `finally` clause and yields only at
`gevent.sleep(0.1)`, after which the broadcast greenlet runs.  The trace
therefore places the ack before the broadcast's enqueue actions.
`ValueError`/`KeyError` from decoding or field access are caught (`pass`);
a `TypeError` from indexing a non-mapping body is not caught, but the
`finally` clause still issues the ack before it propagates. -/
def processTrace (d : DecodeOutcome) (t : Table) : List Action × Option String :=
  match d with
  | .fail => ([Action.ack], none)
  | .nonDict => ([Action.ack], some "TypeError")
  | .dict b =>
    match b.type?, b.oper? with
    | some ty, some op =>
      let hs := lookupHealers t ty op
      if hs.isEmpty then
        ([Action.ack], none)
      else
        (Action.ack :: broadcastActs ty op b.objDict? b.uuid? hs, none)
    | some _, none => ([Action.ack], none)
    | none, _ => ([Action.ack], none)

/-- Concrete work item: a bare-uuid floating-ip handle. -/
def wFip : Work := ("CREATE", Resource.fromUuid "floating-ip" "u1")

/-- Concrete snapshot bearing the same uuid as `wFip`. -/
def snapFip : Snapshot := ⟨some "u1", none, [("floating_ip_address", "10.0.0.1")]⟩

/-- Concrete work item built from `snapFip`; same deduplication identity as
`wFip` though structurally different. -/
def wFipSnap : Work := ("CREATE", Resource.fromSnapshot "floating-ip" snapFip)

/-- A drained buffer holding three notifications for one resource. -/
def bufDup : List Work := [wFip, wFipSnap, wFip]

/-- Five consecutive RETRY verdicts. -/
def vsRetry : List CheckRes := List.replicate 5 ⟨Marker.pyNone, []⟩

/-- A floating-ip healer descriptor. -/
def hFip : HealerDesc := ⟨"floating-ip", ["CREATE"]⟩

/-- A healer descriptor violating the registration contract: empty resource
type and an operation outside CREATE/UPDATE/DELETE. -/
def hBad : HealerDesc := ⟨"", ["FROBNICATE"]⟩

/-- A dispatch table with the floating-ip healer registered. -/
def tFip : Table := register_healer [] hFip

/-- A decoded message routed to the floating-ip healer. -/
def dFip : DecodeOutcome := .dict ⟨some "floating-ip", some "CREATE", none, some "u1"⟩

/- ------------------------------------------------------------------ -/
/- Helper lemmas on the deduplication equality and the retry map.     -/
/- ------------------------------------------------------------------ -/

theorem workEqb_refl (w : Work) : workEqb w w = true := by
  simp [workEqb]

theorem workEqb_symm {x y : Work} (h : workEqb x y = true) : workEqb y x = true := by
  simp [workEqb] at h ⊢
  exact h.symm

theorem workEqb_trans {x y z : Work} (hxy : workEqb x y = true)
    (hyz : workEqb y z = true) : workEqb x z = true := by
  simp [workEqb] at hxy hyz ⊢
  exact hxy.trans hyz

theorem lookupRetry_map_update (w : Work) (n : Nat) :
    ∀ m : RetryMap, m.any (fun p => workEqb p.1 w) = true →
      lookupRetry (m.map (fun p => if workEqb p.1 w then (p.1, n) else p)) w
        = some n := by
  intro m
  induction m with
  | nil => intro hany; simp at hany
  | cons p rest ih =>
    intro hany
    by_cases hp : workEqb p.1 w = true
    · simp [lookupRetry, hp]
    · rw [Bool.not_eq_true] at hp
      have hrest : rest.any (fun p => workEqb p.1 w) = true := by
        simp only [List.any_cons, hp, Bool.false_or] at hany
        exact hany
      simp [lookupRetry, hp, ih hrest]

theorem lookupRetry_append_absent (w : Work) (n : Nat) :
    ∀ m : RetryMap, m.any (fun p => workEqb p.1 w) = false →
      lookupRetry (m ++ [(w, n)]) w = some n := by
  intro m
  induction m with
  | nil => intro _; simp [lookupRetry, workEqb_refl]
  | cons p rest ih =>
    intro hany
    simp only [List.any_cons, Bool.or_eq_false_iff] at hany
    simp [lookupRetry, hany.1, ih hany.2]

theorem lookupRetry_setRetry (w : Work) (n : Nat) (m : RetryMap) :
    lookupRetry (setRetry m w n) w = some n := by
  unfold setRetry
  by_cases hany : m.any (fun p => workEqb p.1 w) = true
  · simp only [hany, if_true]
    exact lookupRetry_map_update w n m hany
  · rw [Bool.not_eq_true] at hany
    simp only [hany, Bool.false_eq_true, if_false]
    exact lookupRetry_append_absent w n m hany

theorem lookupRetry_eraseRetry (w : Work) :
    ∀ m : RetryMap, lookupRetry (eraseRetry m w) w = none := by
  intro m
  induction m with
  | nil => rfl
  | cons p rest ih =>
    simp only [eraseRetry] at ih ⊢
    by_cases hp : workEqb p.1 w = true
    · simpa [List.filter_cons, hp] using ih
    · rw [Bool.not_eq_true] at hp
      simpa [List.filter_cons, hp, lookupRetry] using ih

/- ------------------------------------------------------------------ -/
/- Deduplication in the buffer drain.                                 -/
/- ------------------------------------------------------------------ -/

theorem dedup_countP_one (w : Work) :
    ∀ (l acc : List Work),
      acc.countP (fun x => workEqb x w) = 1 →
      (l.foldl dedupStep acc).countP (fun x => workEqb x w) = 1 := by
  intro l
  induction l with
  | nil => intro acc h; simpa using h
  | cons v rest ih =>
    intro acc h
    simp only [List.foldl_cons]
    apply ih
    unfold dedupStep
    by_cases hany : acc.any (fun x => workEqb x v) = true
    · simpa [hany] using h
    · rw [Bool.not_eq_true] at hany
      simp only [hany, Bool.false_eq_true, if_false]
      have hvw : workEqb v w = false := by
        by_contra hc
        rw [Bool.not_eq_false] at hc
        have hex : ∃ x ∈ acc, workEqb x w = true := by
          rw [← List.countP_pos_iff]
          omega
        obtain ⟨x, hx, hxw⟩ := hex
        have hxv : workEqb x v = true := workEqb_trans hxw (workEqb_symm hc)
        have hca : acc.any (fun x => workEqb x v) = true :=
          List.any_eq_true.mpr ⟨x, hx, hxv⟩
        rw [hca] at hany
        cases hany
      simp [List.countP_append, List.countP_cons, hvw, h]

theorem dedup_countP_establish (w : Work) :
    ∀ (l acc : List Work),
      acc.countP (fun x => workEqb x w) = 0 →
      (∃ v ∈ l, workEqb v w = true) →
      (l.foldl dedupStep acc).countP (fun x => workEqb x w) = 1 := by
  intro l
  induction l with
  | nil =>
    intro acc _ hex
    obtain ⟨v, hv, _⟩ := hex
    simp at hv
  | cons v rest ih =>
    intro acc h hex
    simp only [List.foldl_cons]
    by_cases hvw : workEqb v w = true
    · by_cases hany : acc.any (fun x => workEqb x v) = true
      · obtain ⟨x, hx, hxv⟩ := List.any_eq_true.mp hany
        have hxw : workEqb x w = true := workEqb_trans hxv hvw
        have hpos : 0 < acc.countP (fun x => workEqb x w) :=
          List.countP_pos_iff.mpr ⟨x, hx, hxw⟩
        omega
      · rw [Bool.not_eq_true] at hany
        apply dedup_countP_one w rest
        unfold dedupStep
        simp [hany, List.countP_append, List.countP_cons, hvw, h]
    · rw [Bool.not_eq_true] at hvw
      obtain ⟨v', hv', hv'w⟩ := hex
      have hv'rest : v' ∈ rest := by
        rcases List.mem_cons.mp hv' with he | hm
        · rw [he] at hv'w
          rw [hvw] at hv'w
          cases hv'w
        · exact hm
      apply ih _ _ ⟨v', hv'rest, hv'w⟩
      unfold dedupStep
      by_cases hany : acc.any (fun x => workEqb x v) = true
      · simpa [hany] using h
      · rw [Bool.not_eq_true] at hany
        simp [hany, List.countP_append, List.countP_cons, hvw, h]

/- ------------------------------------------------------------------ -/
/- Bounds on the retry lifecycle of a single key.                     -/
/- ------------------------------------------------------------------ -/

theorem keyRun_le (maxR : Nat) (w : Work) :
    ∀ (vs : List CheckRes) (m : RetryMap),
      (lookupRetry m w).getD 0 ≤ maxR →
      (keyRun maxR w m vs).1 ≤ maxR + 1 - (lookupRetry m w).getD 0 := by
  intro vs
  induction vs with
  | nil =>
    intro m hd
    simp [keyRun]
  | cons r rs ih =>
    intro m hd
    cases hm : r.marker with
    | pyFalse =>
      have hstep : heal_step maxR m w r = (m, [Effect.logNotOk w.2, Effect.fix r.args]) := by
        simp [heal_step, hm]
      simp only [keyRun, hstep, List.any_cons, List.any_nil, isReinsert,
        Bool.or_false, Bool.false_eq_true, if_false]
      omega
    | obj b =>
      have hstep : heal_step maxR m w r = (m, [Effect.logOk w.2]) := by
        simp [heal_step, hm]
      simp only [keyRun, hstep, List.any_cons, List.any_nil, isReinsert,
        Bool.or_false, Bool.false_eq_true, if_false]
      omega
    | pyNone =>
      have hstep : heal_step maxR m w r = retry_step maxR m w := by
        simp [heal_step, hm]
      cases hl : lookupRetry m w with
      | none =>
        by_cases hn : 1 ≤ maxR
        · have hr : retry_step maxR m w
              = (setRetry m w 1, [Effect.logRetrying w.2 1, Effect.scheduleReinsert 1 w]) := by
            simp [retry_step, hl, hn]
          have hd2 : (lookupRetry (setRetry m w 1) w).getD 0 ≤ maxR := by
            rw [lookupRetry_setRetry]
            simpa using hn
          have hle := ih (setRetry m w 1) hd2
          rw [lookupRetry_setRetry] at hle
          simp only [keyRun, hstep, hr, List.any_cons, List.any_nil, isReinsert,
            Bool.false_or, Bool.or_false, if_true, hl]
          simp only [Option.getD_some] at hle
          simp only [Option.getD_none]
          omega
        · have hr : retry_step maxR m w
              = (eraseRetry (setRetry m w 1) w, [Effect.logCeiling w.2]) := by
            simp [retry_step, hl, hn]
          simp only [keyRun, hstep, hr, List.any_cons, List.any_nil, isReinsert,
            Bool.or_false, Bool.false_eq_true, if_false, hl]
          simp only [Option.getD_none]
          omega
      | some c =>
        rw [hl] at hd
        simp only [Option.getD_some] at hd
        by_cases hn : c + 1 ≤ maxR
        · have hr : retry_step maxR m w
              = (setRetry m w (c + 1),
                  [Effect.logRetrying w.2 (c + 1), Effect.scheduleReinsert (c + 1) w]) := by
            simp [retry_step, hl, hn]
          have hd2 : (lookupRetry (setRetry m w (c + 1)) w).getD 0 ≤ maxR := by
            rw [lookupRetry_setRetry]
            simpa using hn
          have hle := ih (setRetry m w (c + 1)) hd2
          rw [lookupRetry_setRetry] at hle
          simp only [keyRun, hstep, hr, List.any_cons, List.any_nil, isReinsert,
            Bool.false_or, Bool.or_false, if_true, hl]
          simp only [Option.getD_some] at hle
          simp only [Option.getD_some]
          omega
        · have hr : retry_step maxR m w
              = (eraseRetry (setRetry m w (c + 1)) w, [Effect.logCeiling w.2]) := by
            simp [retry_step, hl, hn]
          simp only [keyRun, hstep, hr, List.any_cons, List.any_nil, isReinsert,
            Bool.or_false, Bool.false_eq_true, if_false, hl]
          simp only [Option.getD_some]
          omega

theorem keyRun_exhaust (maxR : Nat) (w : Work) :
    ∀ (vs : List CheckRes) (m : RetryMap),
      (lookupRetry m w).getD 0 ≤ maxR →
      (∀ r ∈ vs, r.marker = Marker.pyNone) →
      maxR + 1 - (lookupRetry m w).getD 0 ≤ vs.length →
      (keyRun maxR w m vs).1 = maxR + 1 - (lookupRetry m w).getD 0
        ∧ lookupRetry (keyRun maxR w m vs).2 w = none := by
  intro vs
  induction vs with
  | nil =>
    intro m hd _ hlen
    simp only [List.length_nil] at hlen
    omega
  | cons r rs ih =>
    intro m hd hall hlen
    have hm : r.marker = Marker.pyNone := hall r (List.mem_cons_self r rs)
    have hstep : heal_step maxR m w r = retry_step maxR m w := by
      simp [heal_step, hm]
    have hall2 : ∀ x ∈ rs, x.marker = Marker.pyNone := by
      intro x hx
      exact hall x (List.mem_cons_of_mem r hx)
    simp only [List.length_cons] at hlen
    cases hl : lookupRetry m w with
    | none =>
      rw [hl] at hd hlen
      simp only [Option.getD_none] at hd hlen
      by_cases hn : 1 ≤ maxR
      · have hr : retry_step maxR m w
            = (setRetry m w 1, [Effect.logRetrying w.2 1, Effect.scheduleReinsert 1 w]) := by
          simp [retry_step, hl, hn]
        have hd2 : (lookupRetry (setRetry m w 1) w).getD 0 ≤ maxR := by
          rw [lookupRetry_setRetry]
          simpa using hn
        have hlen2 : maxR + 1 - (lookupRetry (setRetry m w 1) w).getD 0 ≤ rs.length := by
          rw [lookupRetry_setRetry]
          simp only [Option.getD_some]
          omega
        obtain ⟨hcnt, hfin⟩ := ih (setRetry m w 1) hd2 hall2 hlen2
        rw [lookupRetry_setRetry] at hcnt
        simp only [Option.getD_some] at hcnt
        simp only [keyRun, hstep, hr, List.any_cons, List.any_nil, isReinsert,
          Bool.false_or, Bool.or_false, if_true, hl]
        simp only [Option.getD_none]
        constructor
        · omega
        · exact hfin
      · have hmax : maxR = 0 := by omega
        have hr : retry_step maxR m w
            = (eraseRetry (setRetry m w 1) w, [Effect.logCeiling w.2]) := by
          simp [retry_step, hl, hn]
        simp only [keyRun, hstep, hr, List.any_cons, List.any_nil, isReinsert,
          Bool.or_false, Bool.false_eq_true, if_false, hl]
        simp only [Option.getD_none]
        constructor
        · omega
        · exact lookupRetry_eraseRetry w _
    | some c =>
      rw [hl] at hd hlen
      simp only [Option.getD_some] at hd hlen
      by_cases hn : c + 1 ≤ maxR
      · have hr : retry_step maxR m w
            = (setRetry m w (c + 1),
                [Effect.logRetrying w.2 (c + 1), Effect.scheduleReinsert (c + 1) w]) := by
          simp [retry_step, hl, hn]
        have hd2 : (lookupRetry (setRetry m w (c + 1)) w).getD 0 ≤ maxR := by
          rw [lookupRetry_setRetry]
          simpa using hn
        have hlen2 : maxR + 1 - (lookupRetry (setRetry m w (c + 1)) w).getD 0 ≤ rs.length := by
          rw [lookupRetry_setRetry]
          simp only [Option.getD_some]
          omega
        obtain ⟨hcnt, hfin⟩ := ih (setRetry m w (c + 1)) hd2 hall2 hlen2
        rw [lookupRetry_setRetry] at hcnt
        simp only [Option.getD_some] at hcnt
        simp only [keyRun, hstep, hr, List.any_cons, List.any_nil, isReinsert,
          Bool.false_or, Bool.or_false, if_true, hl]
        simp only [Option.getD_some]
        constructor
        · omega
        · exact hfin
      · have hc : c = maxR := by omega
        have hr : retry_step maxR m w
            = (eraseRetry (setRetry m w (c + 1)) w, [Effect.logCeiling w.2]) := by
          simp [retry_step, hl, hn]
        simp only [keyRun, hstep, hr, List.any_cons, List.any_nil, isReinsert,
          Bool.or_false, Bool.false_eq_true, if_false, hl]
        simp only [Option.getD_some]
        constructor
        · omega
        · exact lookupRetry_eraseRetry w _

/- ------------------------------------------------------------------ -/
/- Dispatcher helper: the broadcast step never acknowledges.          -/
/- ------------------------------------------------------------------ -/

theorem broadcastActs_no_ack (ty op : String) (od : Option Snapshot)
    (uu : Option String) (hs : List HealerDesc) :
    (broadcastActs ty op od uu hs).countP isAck = 0 := by
  cases od with
  | some s =>
    simp [broadcastActs, List.countP_map, isAck, Function.comp]
  | none =>
    cases uu with
    | none => simp [broadcastActs]
    | some u => simp [broadcastActs, List.countP_map, isAck, Function.comp]

/- ------------------------------------------------------------------ -/
/- Association-list lemmas for the dispatch-table registration.       -/
/- ------------------------------------------------------------------ -/

theorem alGet_isSome_of_alAny {α : Type} (k : String) :
    ∀ l : List (String × α), alAny l k = true → ∃ v, alGet l k = some v := by
  intro l
  induction l with
  | nil => intro h; simp [alAny] at h
  | cons p rest ih =>
    intro h
    by_cases hp : (p.1 == k) = true
    · exact ⟨p.2, by simp [alGet, hp]⟩
    · rw [Bool.not_eq_true] at hp
      have hrest : alAny rest k = true := by
        simp only [alAny, List.any_cons, hp, Bool.false_or] at h
        exact h
      obtain ⟨v, hv⟩ := ih hrest
      exact ⟨v, by simp [alGet, hp, hv]⟩

theorem alAny_of_alGet_some {α : Type} (k : String) (v : α) :
    ∀ l : List (String × α), alGet l k = some v → alAny l k = true := by
  intro l
  induction l with
  | nil => intro h; simp [alGet] at h
  | cons p rest ih =>
    intro h
    by_cases hp : (p.1 == k) = true
    · simp [alAny, List.any_cons, hp]
    · rw [Bool.not_eq_true] at hp
      rw [alGet, hp] at h
      simp only [Bool.false_eq_true, if_false] at h
      simp only [alAny, List.any_cons, hp, Bool.false_or]
      simpa only [alAny] using ih h

theorem alGet_append_absent {α : Type} (k : String) (v : α) :
    ∀ l : List (String × α), alAny l k = false → alGet (l ++ [(k, v)]) k = some v := by
  intro l
  induction l with
  | nil => intro _; simp [alGet]
  | cons p rest ih =>
    intro h
    simp only [alAny, List.any_cons, Bool.or_eq_false_iff] at h
    rw [List.cons_append, alGet, h.1]
    simp only [Bool.false_eq_true, if_false]
    exact ih h.2

theorem alGet_append_left {α : Type} (k : String) (v : α) (l2 : List (String × α)) :
    ∀ l, alGet l k = some v → alGet (l ++ l2) k = some v := by
  intro l
  induction l with
  | nil => intro h; simp [alGet] at h
  | cons p rest ih =>
    intro h
    by_cases hp : (p.1 == k) = true
    · rw [alGet, hp] at h
      simp only [if_true] at h
      rw [List.cons_append, alGet, hp]
      simpa using h
    · rw [Bool.not_eq_true] at hp
      rw [alGet, hp] at h
      simp only [Bool.false_eq_true, if_false] at h
      rw [List.cons_append, alGet, hp]
      simp only [Bool.false_eq_true, if_false]
      exact ih h

theorem alGet_alUpdate_self {α : Type} (k : String) (f : α → α) (v : α) :
    ∀ l, alGet l k = some v → alGet (alUpdate l k f) k = some (f v) := by
  intro l
  induction l with
  | nil => intro h; simp [alGet] at h
  | cons p rest ih =>
    intro h
    by_cases hp : (p.1 == k) = true
    · rw [alGet, hp] at h
      simp only [if_true] at h
      simp only [alUpdate, List.map_cons, hp, if_true]
      rw [alGet, hp]
      simp only [if_true]
      rw [Option.some.inj h]
    · rw [Bool.not_eq_true] at hp
      rw [alGet, hp] at h
      simp only [Bool.false_eq_true, if_false] at h
      simp only [alUpdate, List.map_cons, hp, Bool.false_eq_true, if_false]
      rw [alGet, hp]
      simp only [Bool.false_eq_true, if_false]
      exact ih h

theorem alGet_alUpdate_ne {α : Type} (k k' : String) (f : α → α) (hne : k ≠ k') :
    ∀ l, alGet (alUpdate l k f) k' = alGet l k' := by
  intro l
  induction l with
  | nil => rfl
  | cons p rest ih =>
    by_cases hp : (p.1 == k) = true
    · have hp1 : p.1 = k := by
        exact eq_of_beq hp
      have hpk : (p.1 == k') = false := by
        rw [hp1]
        exact beq_eq_false_iff_ne.mpr hne
      simp only [alUpdate, List.map_cons, hp, if_true]
      rw [alGet, alGet]
      simp only [hpk, Bool.false_eq_true, if_false]
      exact ih
    · rw [Bool.not_eq_true] at hp
      simp only [alUpdate, List.map_cons, hp, Bool.false_eq_true, if_false]
      rw [alGet, alGet]
      by_cases hpk : (p.1 == k') = true
      · simp only [hpk, if_true]
      · rw [Bool.not_eq_true] at hpk
        simp only [hpk, Bool.false_eq_true, if_false]
        exact ih

theorem registerOp_alGet (res : String) (h : HealerDesc) (acc : Table) (op' : String)
    (om : OperMap) (hacc : alGet acc res = some om) :
    alGet (registerOp res h acc op') res
      = some (alUpdate (if alAny om op' then om else om ++ [(op', [])]) op'
          (fun hs => hs ++ [h])) := by
  unfold registerOp
  exact alGet_alUpdate_self res _ om acc hacc

theorem opMap_after_append (op' : String) (om : OperMap) :
    ∃ hs, alGet (if alAny om op' then om else om ++ [(op', [])]) op' = some hs := by
  by_cases ha : alAny om op' = true
  · obtain ⟨hs, hhs⟩ := alGet_isSome_of_alAny op' om ha
    exact ⟨hs, by simp [ha, hhs]⟩
  · rw [Bool.not_eq_true] at ha
    refine ⟨[], ?_⟩
    simp only [ha, Bool.false_eq_true, if_false]
    exact alGet_append_absent op' [] om ha

theorem registerOp_mem (res : String) (h : HealerDesc) (acc : Table) (op' : String)
    (om : OperMap) (hacc : alGet acc res = some om) :
    h ∈ lookupHealers (registerOp res h acc op') res op' := by
  rw [lookupHealers, registerOp_alGet res h acc op' om hacc]
  simp only [Option.getD_some]
  obtain ⟨hs, hhs⟩ := opMap_after_append op' om
  rw [alGet_alUpdate_self op' _ hs _ hhs]
  simp only [Option.getD_some]
  exact List.mem_append_right hs (List.mem_singleton.mpr rfl)

theorem registerOp_mono (res : String) (h : HealerDesc) (acc : Table) (op op' : String)
    (hmem : h ∈ lookupHealers acc res op) :
    h ∈ lookupHealers (registerOp res h acc op') res op := by
  rw [lookupHealers] at hmem
  cases hres : alGet acc res with
  | none =>
    rw [hres] at hmem
    simp [alGet] at hmem
  | some om =>
    rw [hres] at hmem
    simp only [Option.getD_some] at hmem
    cases hop : alGet om op with
    | none =>
      rw [hop] at hmem
      simp at hmem
    | some hs =>
      rw [hop] at hmem
      simp only [Option.getD_some] at hmem
      rw [lookupHealers, registerOp_alGet res h acc op' om hres]
      simp only [Option.getD_some]
      by_cases heq : op' = op
      · have hany : alAny om op' = true := by
          rw [heq]
          exact alAny_of_alGet_some op hs om hop
        have hget : alGet (if alAny om op' then om else om ++ [(op', [])]) op' = some hs := by
          rw [heq] at hany ⊢
          simp [hany, hop]
        rw [heq] at hget ⊢
        rw [alGet_alUpdate_self op _ hs _ hget]
        simp only [Option.getD_some]
        exact List.mem_append_left [h] hmem
      · have hget : alGet (if alAny om op' then om else om ++ [(op', [])]) op = some hs := by
          by_cases ha : alAny om op' = true
          · simp [ha, hop]
          · rw [Bool.not_eq_true] at ha
            simp only [ha, Bool.false_eq_true, if_false]
            exact alGet_append_left op hs [(op', [])] om hop
        rw [alGet_alUpdate_ne op' op _ heq _, hget]
        simp only [Option.getD_some]
        exact hmem

theorem register_fold_mem (res : String) (h : HealerDesc) (op : String) :
    ∀ (ops : List String) (acc : Table),
      (∃ om, alGet acc res = some om) →
      (h ∈ lookupHealers acc res op ∨ op ∈ ops) →
      h ∈ lookupHealers (ops.foldl (registerOp res h) acc) res op := by
  intro ops
  induction ops with
  | nil =>
    intro acc _ hd
    cases hd with
    | inl hmem => simpa using hmem
    | inr habs => simp at habs
  | cons op' rest ih =>
    intro acc hex hd
    obtain ⟨om, hom⟩ := hex
    simp only [List.foldl_cons]
    refine ih _ ⟨_, registerOp_alGet res h acc op' om hom⟩ ?_
    cases hd with
    | inl hmem => exact Or.inl (registerOp_mono res h acc op op' hmem)
    | inr hops =>
      rcases List.mem_cons.mp hops with he | hm
      · rw [he]
        exact Or.inl (registerOp_mem res h acc op' om hom)
      · exact Or.inr hm

/- ------------------------------------------------------------------ -/
/- Claim theorems.                                                    -/
/- ------------------------------------------------------------------ -/

/-- C1: for every bus message taken from the queue by the dispatcher loop
`Heal._process`, the message's ack is issued exactly once, regardless of
whether the JSON body decodes, whether the fields `type` and `oper` are
present, and whether any healer is registered for the pair: the `msg.ack()`
call sits in a `finally` clause that runs on every path, including the
uncaught `TypeError` path. -/
theorem C1_ack_exactly_once (d : DecodeOutcome) (t : Table) :
    (processTrace d t).1.countP isAck = 1 := by
  cases d with
  | fail => rfl
  | nonDict => rfl
  | dict b =>
    cases hty : b.type? with
    | none => simp [processTrace, hty, isAck]
    | some ty =>
      cases hop : b.oper? with
      | none => simp [processTrace, hty, hop, isAck]
      | some op =>
        by_cases hemp : (lookupHealers t ty op).isEmpty = true
        · simp [processTrace, hty, hop, hemp, isAck]
        · simp [processTrace, hty, hop, hemp, List.countP_cons, isAck,
            broadcastActs_no_ack]

/-- C2: for every group of items drained from the buffer in one
`Healer._process_buffer` pass that are equal under the deduplication
equality (equal operation, resource type and identity, identity being the
uuid when present), exactly one check call is scheduled for that key in
that pass. -/
theorem C2_dedup_single_check (checkDelay : Nat) (buf : List Work) (w : Work)
    (hw : w ∈ buf) :
    (process_buffer checkDelay buf).countP (isCheckFor w) = 1 := by
  unfold process_buffer drainDedup
  rw [List.countP_map]
  have hcomp : (isCheckFor w ∘ fun x => BufEffect.scheduleCheck checkDelay x)
      = fun x => workEqb x w := rfl
  rw [hcomp]
  exact dedup_countP_establish w buf [] rfl ⟨w, hw, workEqb_refl w⟩

theorem C2_dedup_single_check_witness :
    wFip ∈ bufDup ∧ (process_buffer 0 bufDup).countP (isCheckFor wFip) = 1 :=
  ⟨by decide, C2_dedup_single_check 0 bufDup wFip (by decide)⟩

/-- C3: with `max_check_retries = maxR` and no new events for the key, the
check runs at most `maxR + 1` times over the key's lifetime (each list
element is one check result; a further check happens only after a scheduled
re-insertion), and when the verdicts keep being RETRY the count is exactly
`maxR + 1`, after which the retry counter for the key has been removed. -/
theorem C3_check_call_bound (maxR : Nat) (w : Work) (vs : List CheckRes) :
    (keyRun maxR w [] vs).1 ≤ maxR + 1
    ∧ ((∀ r ∈ vs, r.marker = Marker.pyNone) → maxR + 1 ≤ vs.length →
        (keyRun maxR w [] vs).1 = maxR + 1
          ∧ lookupRetry (keyRun maxR w [] vs).2 w = none) := by
  constructor
  · have h := keyRun_le maxR w vs [] (by simp [lookupRetry])
    simpa [lookupRetry] using h
  · intro hall hlen
    have h := keyRun_exhaust maxR w vs [] (by simp [lookupRetry]) hall
      (by simpa [lookupRetry] using hlen)
    simpa [lookupRetry] using h

theorem C3_check_call_bound_witness :
    (keyRun 3 wFip [] vsRetry).1 ≤ 4
    ∧ ((keyRun 3 wFip [] vsRetry).1 = 4
        ∧ lookupRetry (keyRun 3 wFip [] vsRetry).2 wFip = none) :=
  ⟨(C3_check_call_bound 3 wFip vsRetry).1,
    (C3_check_call_bound 3 wFip vsRetry).2 (by decide) (by decide)⟩

/-- C4: on every RETRY verdict `Healer._retry` increments the key's counter
(initialising to 1 when absent); when the new count `n` is within
`max_check_retries` the item's re-insertion into the buffer queue is
scheduled after exactly `n` seconds (linear backoff), and otherwise the
counter is deleted and the ceiling logged, with no re-insertion. -/
theorem C4_retry_backoff (maxR : Nat) (m : RetryMap) (w : Work) :
    lookupRetry (retry_step maxR m w).1 w
      = (if (lookupRetry m w).getD 0 + 1 ≤ maxR
          then some ((lookupRetry m w).getD 0 + 1) else none)
    ∧ (retry_step maxR m w).2
      = (if (lookupRetry m w).getD 0 + 1 ≤ maxR
          then [Effect.logRetrying w.2 ((lookupRetry m w).getD 0 + 1),
                Effect.scheduleReinsert ((lookupRetry m w).getD 0 + 1) w]
          else [Effect.logCeiling w.2]) := by
  cases hl : lookupRetry m w with
  | none =>
    simp only [retry_step, hl, Option.getD_none]
    by_cases hn : 1 ≤ maxR
    · simp [hn, lookupRetry_setRetry]
    · simp [hn, lookupRetry_eraseRetry]
  | some c =>
    simp only [retry_step, hl, Option.getD_some]
    by_cases hn : c + 1 ≤ maxR
    · simp [hn, lookupRetry_setRetry]
    · simp [hn, lookupRetry_eraseRetry]

/-- C5 counterexample: the claim states that after an OK verdict the retry
counter for the key is removed.  In `Healer._heal` the OK branch only logs;
here the key's counter is 1 before an OK verdict and still 1 afterwards. -/
theorem C5_cex_ok_keeps_counter :
    lookupRetry (heal_step 3 [(wFip, 1)] wFip ⟨Marker.obj false, []⟩).1 wFip
      = some 1 := by
  decide

/-- C5 amended: an OK verdict (head neither `False` nor `None`) makes
`Healer._heal` log success and leave `self._retries` unchanged — an
existing counter for the key survives; counters are removed only by the
retry policy when the ceiling is passed. -/
theorem C5_ok_leaves_counters (maxR : Nat) (m : RetryMap) (w : Work)
    (b : Bool) (args : List String) :
    heal_step maxR m w ⟨Marker.obj b, args⟩ = (m, [Effect.logOk w.2]) := rfl

/-- C6 counterexample: the claim states a raised exception is caught and
logged at error level.  `Healer._heal` has no try/except: at this concrete
input the exception propagates out of the step (third component) and no
effect — in particular no error log — is produced. -/
theorem C6_cex_exception_propagates :
    heal_step_exc 3 [] wFip (Except.error "boom") = ([], [], some "boom") := rfl

/-- C6 amended: when `check` raises, the exception propagates uncaught out
of the per-item task (no error log from `_heal`); no fix is invoked, no
retry is scheduled and the retry dictionary is unchanged. -/
theorem C6_exception_uncaught (maxR : Nat) (m : RetryMap) (w : Work) (e : String) :
    heal_step_exc maxR m w (Except.error e) = (m, [], some e) := rfl

/-- C7 counterexample: the claim states every check result headed by a
falsy marker triggers a fix.  `Healer._heal` tests `result[0] is False`:
a falsy marker that is neither `False` nor `None` (such as `0` or `""`,
modelled by `Marker.obj true`) is treated as OK and no fix is invoked. -/
theorem C7_cex_falsy_marker_ok :
    Marker.isFalsy (Marker.obj true) = true
    ∧ heal_step 3 [] wFip ⟨Marker.obj true, ["arg"]⟩ = ([], [Effect.logOk wFip.2]) :=
  ⟨rfl, rfl⟩

/-- C7 amended: a fix is invoked exactly when the head marker is the value
`False`, and then exactly once, with the remaining tuple elements as
arguments and no retry scheduled and no retry-counter change; any other
marker yields no fix. -/
theorem C7_fix_iff_false_marker (maxR : Nat) (m : RetryMap) (w : Work)
    (res : CheckRes) :
    (heal_step maxR m w res).2.countP isFix
      = (if res.marker = Marker.pyFalse then 1 else 0)
    ∧ heal_step maxR m w ⟨Marker.pyFalse, res.args⟩
      = (m, [Effect.logNotOk w.2, Effect.fix res.args]) := by
  refine ⟨?_, rfl⟩
  cases hm : res.marker with
  | pyFalse => simp [heal_step, hm, isFix]
  | obj b => simp [heal_step, hm, isFix]
  | pyNone =>
    have h2 : (retry_step maxR m w).2.countP isFix = 0 := by
      cases hl : lookupRetry m w with
      | none =>
        by_cases hn : 1 ≤ maxR
        · simp [retry_step, hl, hn, isFix]
        · simp [retry_step, hl, hn, isFix]
      | some c =>
        by_cases hn : c + 1 ≤ maxR
        · simp [retry_step, hl, hn, isFix]
        · simp [retry_step, hl, hn, isFix]
    simp [heal_step, hm, h2]

/-- C8 counterexample: the claim states the enqueue onto healer input
queues precedes the acknowledgement.  `Heal._process` only spawns the
broadcast greenlet and then acks in the `finally` clause before yielding,
so in the dispatch trace of this routed message the ack (position 0)
strictly precedes the enqueue (position 1). -/
theorem C8_cex_ack_first :
    (processTrace dFip tFip).1.get? 0 = some Action.ack
    ∧ (processTrace dFip tFip).1.get? 1
        = some (Action.enqueue hFip ("CREATE", Resource.fromUuid "floating-ip" "u1")) := by
  decide

/-- C8 amended: the dispatcher issues the ack before the spawned broadcast
runs: in every dispatch trace the ack is the first action and no ack occurs
later, so every enqueue (performed by the broadcast greenlet) comes strictly
after the acknowledgement; delivery stays at-most-once. -/
theorem C8_ack_precedes_enqueue (d : DecodeOutcome) (t : Table) :
    (processTrace d t).1.head? = some Action.ack
    ∧ (processTrace d t).1.tail.countP isAck = 0 := by
  cases d with
  | fail => exact ⟨rfl, rfl⟩
  | nonDict => exact ⟨rfl, rfl⟩
  | dict b =>
    cases hty : b.type? with
    | none => simp [processTrace, hty]
    | some ty =>
      cases hop : b.oper? with
      | none => simp [processTrace, hty, hop]
      | some op =>
        by_cases hemp : (lookupHealers t ty op).isEmpty = true
        · simp [processTrace, hty, hop, hemp]
        · simp [processTrace, hty, hop, hemp, broadcastActs_no_ack]

/-- C9 counterexample: the claim states registration validates the healer
contract and fails with ConfigurationError for violators.
`Heal._register_healer` validates nothing and has no failure path: a healer
with an empty resource type and an operation outside CREATE/UPDATE/DELETE
is entered into the dispatch table. -/
theorem C9_cex_invalid_registered :
    lookupHealers (register_healer [] hBad) "" "FROBNICATE" = [hBad] := by
  decide

/-- C9 amended: registration performs no validation and cannot fail: every
discovered instance — valid or not — is appended to the dispatch table
under each `(resource, oper)` pair of its `on` list. -/
theorem C9_registration_unvalidated (t : Table) (h : HealerDesc) (op : String)
    (hop : op ∈ h.«on») :
    h ∈ lookupHealers (register_healer t h) h.resource op := by
  unfold register_healer
  apply register_fold_mem
  · by_cases ha : alAny t h.resource = true
    · obtain ⟨om, hom⟩ := alGet_isSome_of_alAny h.resource t ha
      exact ⟨om, by simp [ha, hom]⟩
    · rw [Bool.not_eq_true] at ha
      refine ⟨[], ?_⟩
      simp only [ha, Bool.false_eq_true, if_false]
      exact alGet_append_absent h.resource [] t ha
  · exact Or.inr hop

theorem C9_registration_unvalidated_witness :
    "CREATE" ∈ hFip.«on»
    ∧ hFip ∈ lookupHealers (register_healer [] hFip) hFip.resource "CREATE" :=
  ⟨by decide, C9_registration_unvalidated [] hFip "CREATE" (by decide)⟩

/-- C10: `Heal._broadcast` builds the delivered reference from the
`obj_dict` snapshot whenever it is present (also when a uuid is present:
the snapshot takes precedence); the bare-uuid handle is built only when
`obj_dict` is absent; and a body with neither `obj_dict` nor a non-null
uuid enqueues nothing. -/
theorem C10_snapshot_precedence (ty op : String) (s : Snapshot)
    (uu : Option String) (u : String) (hs : List HealerDesc) :
    broadcastActs ty op (some s) uu hs
      = hs.map (fun h => Action.enqueue h (op, Resource.fromSnapshot ty s))
    ∧ broadcastActs ty op none (some u) hs
      = hs.map (fun h => Action.enqueue h (op, Resource.fromUuid ty u))
    ∧ broadcastActs ty op none none hs = [] :=
  ⟨rfl, rfl, rfl⟩

end CH
